import Mathlib

/-!
# Verification of the `lisp-parser` S-expression parser

A shallow embedding of `src/main.rs`: the tokenizer (`tokenize`), the
stack-based structural parser (`parse_tokens`, here `parseTokens`), the
atom classifier (`Atom::new`, here `Atom.new` via `parseU32`, a model of
Rust's `u32::from_str`), and the renderer (the `Display` impls, here
`render`).  Strings are modelled as `List Char`, matching Rust's
`str::chars` iteration over Unicode scalar values.
-/

/-- `enum Atom { Ident(String), Num(u32) }`.  The `u32` payload is a `Nat`;
the classifier below only ever produces values `< 2^32`. -/
inductive Atom where
  | Ident (s : List Char)
  | Num (n : Nat)
deriving DecidableEq, Repr

/-- `enum Expr { Group(Vec<Expr>), Atom(Atom) }`. -/
inductive Expr where
  | Group (es : List Expr)
  | Atom (a : Atom)
deriving Repr

/-- `enum Token { Lparen, Rparen, Atom(Atom) }`. -/
inductive Token where
  | Lparen
  | Rparen
  | Atom (a : Atom)
deriving DecidableEq, Repr

/-- Accumulate the numeric value of a list of decimal digit characters,
most significant first, as `str::parse` does digit by digit. -/
def digitsToNat (s : List Char) : Nat :=
  s.foldl (fun a c => a * 10 + (c.toNat - 48)) 0

/-- Strip the one optional leading `+` sign accepted by Rust's
`u32::from_str` (a `-` is not accepted for unsigned types and is left in
place, to fail the digit check). -/
def stripSign : List Char → List Char
  | '+' :: rest => rest
  | s => s

/-- Model of Rust's `u32::from_str` (`s.parse::<u32>()` in `Atom::new`):
an optional leading `+` sign, then a non-empty run of ASCII digits whose
value fits in 32 unsigned bits; anything else fails.  (Rust checks
overflow step by step, which is equivalent to checking the final value,
since the accumulator grows monotonically.) -/
def parseU32 (s : List Char) : Option Nat :=
  let digits := stripSign s
  if digits ≠ [] ∧ digits.all Char.isDigit ∧ digitsToNat digits < 2 ^ 32 then
    some (digitsToNat digits)
  else
    none

/-- `Atom::new`: try to parse the token text as a `u32`; on success the
atom is a `Num`, on failure an `Ident`. -/
def Atom.new (s : List Char) : Atom :=
  match parseU32 s with
  | some n => .Num n
  | none => .Ident s

/-- A character that the tokenizer pushes onto the current-token buffer:
anything except `(`, `)` and the ASCII space. -/
def isBufChar (c : Char) : Bool :=
  c ≠ '(' && c ≠ ')' && c ≠ ' '

/-- The tokenizer's flush step: a non-empty buffer is emitted as a single
`Atom` token (classified by `Atom.new`); an empty buffer emits nothing. -/
def flushBuf (buf : List Char) : List Token :=
  if buf = [] then [] else [Token.Atom (Atom.new buf)]

/-- The body of `tokenize`'s `flat_map` closure, iterated over the input:
the first argument is the mutable `curr_token` buffer.  On `(`, `)` or a
space the buffer is flushed (if non-empty); `(` and `)` then emit their
own structural token; any other character is pushed onto the buffer. -/
def tokenizeAux : List Char → List Char → List Token
  | _, [] => []
  | buf, c :: cs =>
    if c = '(' then flushBuf buf ++ Token.Lparen :: tokenizeAux [] cs
    else if c = ')' then flushBuf buf ++ Token.Rparen :: tokenizeAux [] cs
    else if c = ' ' then flushBuf buf ++ tokenizeAux [] cs
    else tokenizeAux (buf ++ [c]) cs

/-- `tokenize`: scan the input characters with one trailing space
appended (`expr.chars().chain([' '])`), starting from an empty buffer. -/
def tokenize (s : List Char) : List Token :=
  tokenizeAux [] (s ++ [' '])

/-- The three failure kinds of the structural parser (the Rust code
reports them as `anyhow` messages; the spec names them as below). -/
inductive ParseError where
  | UnbalancedParen
  | UnclosedParen (count : Nat)
  | WrongTopLevelCount (n : Nat)
deriving DecidableEq, Repr

/-- The parser's stack of open contexts.  The Rust `contexts` vector
always holds the root ("dummy") context at the bottom; we keep that
invariant by construction: the first component is the stack of non-root
contexts (top of stack at the head), the second is the root context. -/
abbrev Stack := List (List Expr) × List Expr

/-- Append an expression to the context at the top of the stack
(`contexts.last_mut().unwrap().push(e)`). -/
def pushExpr (e : Expr) : Stack → Stack
  | ([], root) => ([], root ++ [e])
  | (top :: rest, root) => ((top ++ [e]) :: rest, root)

/-- One iteration of the `for t in tokens` loop in `parse_tokens`:
`Lparen` pushes a new empty context; `Rparen` with only the root context
left is the `unexpected closing paren` failure, otherwise it pops the top
context and appends it as a `Group` to its parent; an atom is appended to
the top context. -/
def step : Stack → Token → Except ParseError Stack
  | (nonRoot, root), .Lparen => .ok ([] :: nonRoot, root)
  | ([], _), .Rparen => .error .UnbalancedParen
  | (top :: rest, root), .Rparen => .ok (pushExpr (.Group top) (rest, root))
  | st, .Atom a => .ok (pushExpr (.Atom a) st)

/-- Run the token loop of `parse_tokens` to completion (or to the first
error). -/
def runTokens : Stack → List Token → Except ParseError Stack
  | st, [] => .ok st
  | st, t :: ts =>
    match step st t with
    | .ok st2 => runTokens st2 ts
    | .error e => .error e

/-- `parse_tokens`: run the loop, then check — in the Rust order — that
no context is left unclosed and that the root context holds exactly one
expression, which is returned. -/
def parseTokens (ts : List Token) : Except ParseError Expr :=
  match runTokens ([], []) ts with
  | .error e => .error e
  | .ok (c :: cs, _) => .error (.UnclosedParen (c :: cs).length)
  | .ok ([], [e]) => .ok e
  | .ok ([], root) => .error (.WrongTopLevelCount root.length)

/-- `parse`: tokenize then structurally parse. -/
def parse (s : List Char) : Except ParseError Expr :=
  parseTokens (tokenize s)

/-- One digit as a character (`0 ↦ '0'`, …, `9 ↦ '9'`). -/
def digitChar (d : Nat) : Char :=
  Char.ofNat (d + 48)

/-- Decimal digits of `n`, most significant first, via repeated division;
the first argument is structural-recursion fuel (any fuel `> n` gives the
true digits).  Models Rust's `Display for u32`. -/
def natDigitsCore : Nat → Nat → List Char
  | 0, _ => []
  | fuel + 1, n =>
    if n < 10 then [digitChar n]
    else natDigitsCore fuel (n / 10) ++ [digitChar (n % 10)]

/-- The decimal rendering of `n`: no sign, no leading zeros (`0 ↦ "0"`). -/
def natDigits (n : Nat) : List Char :=
  natDigitsCore (n + 1) n

mutual

/-- The `Display` impls: an `Ident` renders as its text, a `Num` as its
decimal digits, a `Group` as `(`, the children joined by single spaces,
`)`. -/
def render : Expr → List Char
  | .Atom (.Ident s) => s
  | .Atom (.Num n) => natDigits n
  | .Group es => '(' :: renderList es ++ [')']

/-- Children of a group, rendered and joined with single spaces (the
`if i != 0 { write!(f, " ") }` loop). -/
def renderList : List Expr → List Char
  | [] => []
  | [e] => render e
  | e :: e2 :: es => render e ++ ' ' :: renderList (e2 :: es)

end

mutual

/-- The canonical token sequence of an expression: what tokenizing its
rendering produces. -/
def tokensOf : Expr → List Token
  | .Atom a => [Token.Atom a]
  | .Group es => Token.Lparen :: tokensOfList es ++ [Token.Rparen]

/-- Canonical token sequences of a list of expressions, concatenated. -/
def tokensOfList : List Expr → List Token
  | [] => []
  | e :: es => tokensOf e ++ tokensOfList es

end

/-- Well-formedness of an atom as produced by the tokenizer: an `Ident`'s
text is non-empty, consists of buffer characters only, and does not parse
as a `u32` (else `Atom.new` would have made it a `Num`); a `Num` fits in
32 bits. -/
def AtomWf : Atom → Bool
  | .Ident s => !s.isEmpty && s.all isBufChar && (parseU32 s).isNone
  | .Num n => n < 2 ^ 32

mutual

/-- Every atom in the tree is well-formed (holds for every parse result). -/
def ExprWf : Expr → Bool
  | .Atom a => AtomWf a
  | .Group es => ExprListWf es

/-- `ExprWf` on every element. -/
def ExprListWf : List Expr → Bool
  | [] => true
  | e :: es => ExprWf e && ExprListWf es

end

mutual

/-- Every `Ident` atom in the tree has non-empty text. -/
def identsNonEmpty : Expr → Bool
  | .Atom (.Ident s) => !s.isEmpty
  | .Atom (.Num _) => true
  | .Group es => identsNonEmptyList es

/-- `identsNonEmpty` on every element. -/
def identsNonEmptyList : List Expr → Bool
  | [] => true
  | e :: es => identsNonEmpty e && identsNonEmptyList es

end

/-- The text a token of kind `Atom` carries, as rendered. -/
def atomText : Atom → List Char
  | .Ident s => s
  | .Num n => natDigits n

/-- Join a list of strings with single spaces. -/
def joinSpace : List (List Char) → List Char
  | [] => []
  | [s] => s
  | s :: s2 :: ss => s ++ ' ' :: joinSpace (s2 :: ss)

/-- The "syntactically valid input strings that use single spaces as
separators and contain no redundant whitespace", as a grammar: either a
single atom token (non-empty, no `(`/`)`/space characters), or `(`, a
list of such strings joined by single spaces, `)`. -/
inductive ValidStr : List Char → Prop
  | atom (s : List Char) (h1 : s ≠ []) (h2 : s.all isBufChar) : ValidStr s
  | group (ss : List (List Char)) (h : ∀ x ∈ ss, ValidStr x) :
      ValidStr ('(' :: joinSpace ss ++ [')'])

/-- `ValidStr` strengthened so that every atom token that classifies as a
number is written canonically (the decimal digits of its value: no
leading zeros, no sign). -/
inductive CanonStr : List Char → Prop
  | atom (s : List Char) (h1 : s ≠ []) (h2 : s.all isBufChar)
      (h3 : ∀ n, parseU32 s = some n → s = natDigits n) : CanonStr s
  | group (ss : List (List Char)) (h : ∀ x ∈ ss, CanonStr x) :
      CanonStr ('(' :: joinSpace ss ++ [')'])

/-! ## Decimal digit lemmas -/

theorem digitChar_facts : ∀ d, d < 10 →
    (digitChar d).isDigit = true ∧ isBufChar (digitChar d) = true ∧
    (digitChar d).toNat - 48 = d ∧ digitChar d ≠ '+' ∧
    (d ≠ 0 → digitChar d ≠ '0') := by decide

theorem natDigitsCore_succ (f n : Nat) :
    natDigitsCore (f + 1) n =
      if n < 10 then [digitChar n]
      else natDigitsCore f (n / 10) ++ [digitChar (n % 10)] := rfl

theorem natDigitsCore_fuel : ∀ f g n, n < f → n < g →
    natDigitsCore f n = natDigitsCore g n := by
  intro f
  induction f with
  | zero => intro g n hf; omega
  | succ f ih =>
    intro g n hf hg
    cases g with
    | zero => omega
    | succ g =>
      rw [natDigitsCore_succ, natDigitsCore_succ]
      by_cases h10 : n < 10
      · simp [h10]
      · have hdiv : n / 10 < n := Nat.div_lt_self (by omega) (by omega)
        rw [if_neg h10, if_neg h10, ih g (n / 10) (by omega) (by omega)]

theorem natDigits_lt10 (n : Nat) (h : n < 10) : natDigits n = [digitChar n] := by
  rw [natDigits, natDigitsCore_succ, if_pos h]

theorem natDigits_ge10 (n : Nat) (h : 10 ≤ n) :
    natDigits n = natDigits (n / 10) ++ [digitChar (n % 10)] := by
  have hdiv : n / 10 < n := Nat.div_lt_self (by omega) (by omega)
  rw [natDigits, natDigitsCore_succ, if_neg (by omega),
    natDigitsCore_fuel n (n / 10 + 1) (n / 10) (by omega) (by omega)]
  rfl

theorem natDigits_ne_nil (n : Nat) : natDigits n ≠ [] := by
  by_cases h : n < 10
  · simp [natDigits_lt10 n h]
  · simp [natDigits_ge10 n (by omega)]

theorem digitsToNat_append (xs : List Char) (c : Char) :
    digitsToNat (xs ++ [c]) = digitsToNat xs * 10 + (c.toNat - 48) := by
  simp [digitsToNat, List.foldl_append]

theorem digitsToNat_natDigits (n : Nat) : digitsToNat (natDigits n) = n := by
  induction n using Nat.strong_induction_on with
  | _ n ih =>
    by_cases h : n < 10
    · rw [natDigits_lt10 n h]
      have := (digitChar_facts n h).2.2.1
      simp [digitsToNat, this]
    · have hdiv : n / 10 < n := Nat.div_lt_self (by omega) (by omega)
      rw [natDigits_ge10 n (by omega), digitsToNat_append, ih (n / 10) hdiv,
        (digitChar_facts (n % 10) (Nat.mod_lt n (by omega))).2.2.1]
      omega

theorem natDigits_all_digit (n : Nat) : (natDigits n).all Char.isDigit = true := by
  induction n using Nat.strong_induction_on with
  | _ n ih =>
    by_cases h : n < 10
    · rw [natDigits_lt10 n h]
      simp [(digitChar_facts n h).1]
    · have hdiv : n / 10 < n := Nat.div_lt_self (by omega) (by omega)
      rw [natDigits_ge10 n (by omega), List.all_append]
      simp [ih (n / 10) hdiv, (digitChar_facts (n % 10) (Nat.mod_lt n (by omega))).1]

theorem isDigit_isBufChar (c : Char) (h : c.isDigit = true) : isBufChar c = true := by
  simp only [isBufChar, Bool.and_eq_true, decide_eq_true_eq, ne_eq]
  refine ⟨⟨?_, ?_⟩, ?_⟩ <;> rintro rfl <;> exact absurd h (by decide)

theorem natDigits_all_bufChar (n : Nat) : (natDigits n).all isBufChar = true := by
  have h := natDigits_all_digit n
  rw [List.all_eq_true] at h ⊢
  intro c hc
  exact isDigit_isBufChar c (h c hc)

theorem natDigits_head_ne_zero (n : Nat) (h : n ≠ 0) :
    (natDigits n).head? ≠ some '0' := by
  induction n using Nat.strong_induction_on with
  | _ n ih =>
    by_cases h10 : n < 10
    · rw [natDigits_lt10 n h10]
      have := (digitChar_facts n h10).2.2.2.2 h
      simp [this]
    · have hdiv : n / 10 < n := Nat.div_lt_self (by omega) (by omega)
      have hne : n / 10 ≠ 0 := by omega
      rw [natDigits_ge10 n (by omega)]
      obtain ⟨c, cs, hcs⟩ := List.exists_cons_of_ne_nil (natDigits_ne_nil (n / 10))
      have := ih (n / 10) hdiv hne
      rw [hcs] at this ⊢
      simpa using this

theorem stripSign_cons_ne (c : Char) (cs : List Char) (hc : c ≠ '+') :
    stripSign (c :: cs) = c :: cs := by
  rw [stripSign.eq_def]
  split
  · rename_i heq
    injection heq with h1 _
    exact absurd h1 hc
  · rfl

theorem stripSign_of_all_digit (s : List Char) (h : s.all Char.isDigit = true) :
    stripSign s = s := by
  cases s with
  | nil => rfl
  | cons c cs =>
    rw [List.all_cons, Bool.and_eq_true] at h
    refine stripSign_cons_ne c cs ?_
    rintro rfl
    exact absurd h.1 (by decide)

theorem parseU32_natDigits (n : Nat) (h : n < 2 ^ 32) :
    parseU32 (natDigits n) = some n := by
  rw [parseU32, stripSign_of_all_digit _ (natDigits_all_digit n)]
  rw [if_pos ⟨natDigits_ne_nil n, natDigits_all_digit n,
    by rw [digitsToNat_natDigits]; exact h⟩, digitsToNat_natDigits]

theorem parseU32_lt (s : List Char) (n : Nat) (h : parseU32 s = some n) :
    n < 2 ^ 32 := by
  rw [parseU32] at h
  split at h
  · rename_i hcond
    cases h
    exact hcond.2.2
  · cases h

/-! ## Tokenizer lemmas -/

theorem isBufChar_spec (c : Char) :
    isBufChar c = true ↔ (c ≠ '(' ∧ c ≠ ')' ∧ c ≠ ' ') := by
  simp [isBufChar, and_assoc]

theorem tokenizeAux_sep (buf : List Char) (c : Char) (cs : List Char)
    (hc : c = '(' ∨ c = ')' ∨ c = ' ') :
    tokenizeAux buf (c :: cs) = flushBuf buf ++ tokenizeAux [] (c :: cs) := by
  rcases hc with rfl | rfl | rfl <;> rfl

theorem tokenizeAux_other (buf : List Char) (c : Char) (cs : List Char)
    (h1 : c ≠ '(') (h2 : c ≠ ')') (h3 : c ≠ ' ') :
    tokenizeAux buf (c :: cs) = tokenizeAux (buf ++ [c]) cs := by
  rw [tokenizeAux, if_neg h1, if_neg h2, if_neg h3]

theorem tokenizeAux_nil_space (cs : List Char) :
    tokenizeAux [] (' ' :: cs) = tokenizeAux [] cs := rfl

theorem tokenizeAux_nil_lparen (cs : List Char) :
    tokenizeAux [] ('(' :: cs) = Token.Lparen :: tokenizeAux [] cs := rfl

theorem tokenizeAux_nil_rparen (cs : List Char) :
    tokenizeAux [] (')' :: cs) = Token.Rparen :: tokenizeAux [] cs := rfl

theorem tokenizeAux_accum : ∀ (s : List Char), s.all isBufChar = true →
    ∀ (buf cs : List Char), tokenizeAux buf (s ++ cs) = tokenizeAux (buf ++ s) cs := by
  intro s
  induction s with
  | nil => intro _ buf cs; simp
  | cons c s ih =>
    intro h buf cs
    rw [List.all_cons, Bool.and_eq_true] at h
    obtain ⟨h1, h2, h3⟩ := (isBufChar_spec c).mp h.1
    rw [List.cons_append, tokenizeAux_other buf c _ h1 h2 h3, ih h.2]
    simp

theorem tokenize_single (s : List Char) (h1 : s ≠ []) (h2 : s.all isBufChar = true) :
    tokenize s = [Token.Atom (Atom.new s)] := by
  have hstep : tokenizeAux s [' '] = flushBuf s ++ tokenizeAux [] [] := rfl
  rw [tokenize, tokenizeAux_accum s h2 [] [' '], List.nil_append, hstep]
  simp [flushBuf, h1, tokenizeAux]

theorem atomNew_of_parseU32_none (s : List Char) (h : parseU32 s = none) :
    Atom.new s = .Ident s := by
  rw [Atom.new, h]

theorem atomNew_natDigits (n : Nat) (h : n < 2 ^ 32) :
    Atom.new (natDigits n) = .Num n := by
  rw [Atom.new, parseU32_natDigits n h]

mutual

theorem tokenizeAux_render (e : Expr) (h : ExprWf e = true) (c : Char)
    (hc : c = ' ' ∨ c = ')') (cs : List Char) :
    tokenizeAux [] (render e ++ c :: cs) = tokensOf e ++ tokenizeAux [] (c :: cs) := by
  have hsep : c = '(' ∨ c = ')' ∨ c = ' ' := by tauto
  match e with
  | .Atom (.Ident s) =>
    simp only [ExprWf, AtomWf, Bool.and_eq_true] at h
    obtain ⟨⟨hne0, hbuf⟩, hnone0⟩ := h
    have hne : s ≠ [] := by
      intro hs
      rw [hs] at hne0
      simp at hne0
    have hnone : parseU32 s = none := Option.isNone_iff_eq_none.mp hnone0
    rw [render, tokensOf, tokenizeAux_accum s hbuf [] (c :: cs), List.nil_append,
      tokenizeAux_sep s c cs hsep, flushBuf, if_neg hne,
      atomNew_of_parseU32_none s hnone]
  | .Atom (.Num n) =>
    simp only [ExprWf, AtomWf, decide_eq_true_eq] at h
    rw [render, tokensOf,
      tokenizeAux_accum (natDigits n) (natDigits_all_bufChar n) [] (c :: cs),
      List.nil_append, tokenizeAux_sep (natDigits n) c cs hsep, flushBuf,
      if_neg (natDigits_ne_nil n), atomNew_natDigits n h]
  | .Group es =>
    rw [render, tokensOf]
    have hes : ExprListWf es = true := by
      simpa only [ExprWf] using h
    calc tokenizeAux [] (('(' :: renderList es ++ [')']) ++ c :: cs)
        = Token.Lparen :: tokenizeAux [] (renderList es ++ ')' :: c :: cs) := by
          rw [List.cons_append, List.cons_append, tokenizeAux_nil_lparen,
            List.append_assoc]
          rfl
      _ = Token.Lparen :: (tokensOfList es ++ Token.Rparen :: tokenizeAux [] (c :: cs)) := by
          rw [tokenizeAux_renderList es hes (c :: cs)]
      _ = (Token.Lparen :: tokensOfList es ++ [Token.Rparen]) ++ tokenizeAux [] (c :: cs) := by
          simp

theorem tokenizeAux_renderList (es : List Expr) (h : ExprListWf es = true)
    (cs : List Char) :
    tokenizeAux [] (renderList es ++ ')' :: cs) =
      tokensOfList es ++ Token.Rparen :: tokenizeAux [] cs := by
  match es with
  | [] =>
    rw [renderList, tokensOfList, List.nil_append, tokenizeAux_nil_rparen, List.nil_append]
  | [e] =>
    have he : ExprWf e = true := by
      simp only [ExprListWf, Bool.and_eq_true] at h
      exact h.1
    rw [renderList, tokensOfList, tokensOfList,
      tokenizeAux_render e he ')' (Or.inr rfl) cs, tokenizeAux_nil_rparen]
    simp
  | e :: e2 :: es2 =>
    simp only [ExprListWf, Bool.and_eq_true] at h
    obtain ⟨he, hrest⟩ := h
    have hrest2 : ExprListWf (e2 :: es2) = true := by
      simp only [ExprListWf, Bool.and_eq_true]
      exact hrest
    rw [renderList, tokensOfList, List.append_assoc, List.cons_append,
      tokenizeAux_render e he ' ' (Or.inl rfl)
        (renderList (e2 :: es2) ++ ')' :: cs),
      tokenizeAux_nil_space, tokenizeAux_renderList (e2 :: es2) hrest2 cs]
    simp

end

theorem tokenize_render (e : Expr) (h : ExprWf e = true) :
    tokenize (render e) = tokensOf e := by
  rw [tokenize, tokenizeAux_render e h ' ' (Or.inl rfl) [],
    show tokenizeAux [] [' '] = [] from rfl, List.append_nil]

theorem mem_flushBuf_wf (buf : List Char) (hbuf : buf.all isBufChar = true) (a : Atom)
    (h : Token.Atom a ∈ flushBuf buf) : AtomWf a = true := by
  rw [flushBuf] at h
  split at h
  · simp at h
  · rename_i hne
    simp only [List.mem_singleton, Token.Atom.injEq] at h
    subst h
    rw [Atom.new]
    cases hp : parseU32 buf with
    | some n => simpa [AtomWf] using parseU32_lt buf n hp
    | none =>
      cases buf with
      | nil => exact absurd rfl hne
      | cons c cs => simp [AtomWf, hbuf, hp]

theorem tokenizeAux_atoms_wf : ∀ (cs buf : List Char), buf.all isBufChar = true →
    ∀ a, Token.Atom a ∈ tokenizeAux buf cs → AtomWf a = true := by
  intro cs
  induction cs with
  | nil =>
    intro buf _ a h
    rw [tokenizeAux] at h
    simp at h
  | cons c cs ih =>
    intro buf hbuf a h
    rw [tokenizeAux] at h
    split at h
    · rw [List.mem_append, List.mem_cons] at h
      rcases h with h | h | h
      · exact mem_flushBuf_wf buf hbuf a h
      · exact absurd h (by simp)
      · exact ih [] rfl a h
    · split at h
      · rw [List.mem_append, List.mem_cons] at h
        rcases h with h | h | h
        · exact mem_flushBuf_wf buf hbuf a h
        · exact absurd h (by simp)
        · exact ih [] rfl a h
      · split at h
        · rw [List.mem_append] at h
          rcases h with h | h
          · exact mem_flushBuf_wf buf hbuf a h
          · exact ih [] rfl a h
        · rename_i hc1 hc2 hc3
          refine ih (buf ++ [c]) ?_ a h
          rw [List.all_append]
          simp [hbuf, (isBufChar_spec c).mpr ⟨hc1, hc2, hc3⟩]

theorem tokenize_atoms_wf (s : List Char) (a : Atom)
    (h : Token.Atom a ∈ tokenize s) : AtomWf a = true :=
  tokenizeAux_atoms_wf (s ++ [' ']) [] rfl a h

/-! ## Structural parser lemmas -/

theorem step_lparen (st : Stack) : step st .Lparen = .ok ([] :: st.1, st.2) := by
  obtain ⟨nr, root⟩ := st
  cases nr <;> rfl

theorem step_atom (st : Stack) (a : Atom) :
    step st (.Atom a) = .ok (pushExpr (.Atom a) st) := by
  obtain ⟨nr, root⟩ := st
  cases nr <;> rfl

theorem step_rparen_root (root : List Expr) :
    step ([], root) .Rparen = .error .UnbalancedParen := rfl

theorem step_rparen_cons (top : List Expr) (rest : List (List Expr)) (root : List Expr) :
    step (top :: rest, root) .Rparen = .ok (pushExpr (.Group top) (rest, root)) := rfl

theorem pushExpr_nil (e : Expr) (root : List Expr) :
    pushExpr e ([], root) = ([], root ++ [e]) := rfl

theorem pushExpr_cons (e : Expr) (top : List Expr) (rest : List (List Expr))
    (root : List Expr) :
    pushExpr e (top :: rest, root) = ((top ++ [e]) :: rest, root) := rfl

theorem runTokens_ok_cons (st st2 : Stack) (t : Token) (ts : List Token)
    (h : step st t = .ok st2) : runTokens st (t :: ts) = runTokens st2 ts := by
  rw [runTokens, h]

theorem step_error (st : Stack) (t : Token) (e : ParseError)
    (h : step st t = .error e) : e = .UnbalancedParen := by
  obtain ⟨nr, root⟩ := st
  cases t with
  | Lparen => rw [step_lparen] at h; exact absurd h (by simp)
  | Rparen =>
    cases nr with
    | nil => rw [step_rparen_root] at h; injection h with h; exact h.symm
    | cons top rest => rw [step_rparen_cons] at h; exact absurd h (by simp)
  | Atom a => rw [step_atom] at h; exact absurd h (by simp)

theorem runTokens_error : ∀ (ts : List Token) (st : Stack) (e : ParseError),
    runTokens st ts = .error e → e = .UnbalancedParen := by
  intro ts
  induction ts with
  | nil =>
    intro st e h
    rw [runTokens] at h
    exact absurd h (by simp)
  | cons t ts ih =>
    intro st e h
    rw [runTokens] at h
    cases hstep : step st t with
    | ok st2 =>
      rw [hstep] at h
      exact ih st2 e h
    | error e2 =>
      rw [hstep] at h
      injection h with h
      exact h ▸ step_error st t e2 hstep

mutual

theorem runTokens_tokensOf (e : Expr) (st : Stack) (rest : List Token) :
    runTokens st (tokensOf e ++ rest) = runTokens (pushExpr e st) rest := by
  match e with
  | .Atom a =>
    rw [tokensOf, List.cons_append, List.nil_append,
      runTokens_ok_cons st (pushExpr (.Atom a) st) _ rest (step_atom st a)]
  | .Group es =>
    rw [tokensOf]
    obtain ⟨nr, root⟩ := st
    calc runTokens (nr, root) ((Token.Lparen :: tokensOfList es ++ [Token.Rparen]) ++ rest)
        = runTokens ([] :: nr, root) (tokensOfList es ++ Token.Rparen :: rest) := by
          rw [List.cons_append, List.cons_append,
            runTokens_ok_cons _ _ _ _ (step_lparen (nr, root)), List.append_assoc]
          rfl
      _ = runTokens (([] ++ es) :: nr, root) (Token.Rparen :: rest) :=
          runTokens_tokensOfList es [] nr root (Token.Rparen :: rest)
      _ = runTokens (pushExpr (.Group es) (nr, root)) rest := by
          rw [List.nil_append,
            runTokens_ok_cons _ _ _ _ (step_rparen_cons es nr root)]

theorem runTokens_tokensOfList (es : List Expr) (top : List Expr)
    (nr : List (List Expr)) (root : List Expr) (rest : List Token) :
    runTokens (top :: nr, root) (tokensOfList es ++ rest) =
      runTokens ((top ++ es) :: nr, root) rest := by
  match es with
  | [] => rw [tokensOfList, List.nil_append, List.append_nil]
  | e :: es2 =>
    rw [tokensOfList, List.append_assoc,
      runTokens_tokensOf e (top :: nr, root) (tokensOfList es2 ++ rest), pushExpr_cons,
      runTokens_tokensOfList es2 (top ++ [e]) nr root rest, List.append_assoc]
    rfl

end

theorem parseTokens_tokensOf (e : Expr) : parseTokens (tokensOf e) = .ok e := by
  have h : runTokens ([], []) (tokensOf e ++ []) = runTokens (pushExpr e ([], [])) [] :=
    runTokens_tokensOf e ([], []) []
  rw [List.append_nil] at h
  rw [parseTokens, h]
  rfl

theorem parse_render (e : Expr) (h : ExprWf e = true) : parse (render e) = .ok e := by
  rw [parse, tokenize_render e h, parseTokens_tokensOf]

/-! ## Well-formedness of parse results -/

/-- Every open context of the stack, root included, holds only well-formed
expressions. -/
def StackWf (st : Stack) : Bool :=
  st.1.all (fun ctx => ExprListWf ctx) && ExprListWf st.2

theorem exprListWf_append (xs ys : List Expr) :
    ExprListWf (xs ++ ys) = (ExprListWf xs && ExprListWf ys) := by
  induction xs with
  | nil => simp [ExprListWf]
  | cons e es ih => simp [ExprListWf, ih, Bool.and_assoc]

theorem pushExpr_wf (e : Expr) (st : Stack) (hst : StackWf st = true)
    (he : ExprWf e = true) : StackWf (pushExpr e st) = true := by
  obtain ⟨nr, root⟩ := st
  simp only [StackWf, Bool.and_eq_true] at hst
  cases nr with
  | nil =>
    rw [pushExpr_nil]
    simp only [StackWf, Bool.and_eq_true, exprListWf_append]
    exact ⟨hst.1, by simp [hst.2, he, ExprListWf]⟩
  | cons top rest =>
    rw [pushExpr_cons]
    simp only [StackWf, Bool.and_eq_true, List.all_cons] at hst ⊢
    obtain ⟨⟨htop, hrest⟩, hroot⟩ := hst
    refine ⟨⟨?_, hrest⟩, hroot⟩
    rw [exprListWf_append]
    simp [htop, he, ExprListWf]

theorem step_wf (st st2 : Stack) (t : Token) (hst : StackWf st = true)
    (hatom : ∀ a, t = .Atom a → AtomWf a = true)
    (h : step st t = .ok st2) : StackWf st2 = true := by
  obtain ⟨nr, root⟩ := st
  cases t with
  | Lparen =>
    rw [step_lparen] at h
    injection h with h
    subst h
    simp only [StackWf, Bool.and_eq_true, List.all_cons] at hst ⊢
    exact ⟨⟨rfl, hst.1⟩, hst.2⟩
  | Rparen =>
    cases nr with
    | nil => rw [step_rparen_root] at h; exact absurd h (by simp)
    | cons top rest =>
      rw [step_rparen_cons] at h
      injection h with h
      subst h
      simp only [StackWf, Bool.and_eq_true, List.all_cons] at hst
      obtain ⟨⟨htop, hrest⟩, hroot⟩ := hst
      refine pushExpr_wf _ _ ?_ ?_
      · simp [StackWf, hrest, hroot]
      · simpa [ExprWf] using htop
  | Atom a =>
    rw [step_atom] at h
    injection h with h
    subst h
    exact pushExpr_wf _ _ hst (by simpa [ExprWf] using hatom a rfl)

theorem runTokens_wf : ∀ (ts : List Token) (st st2 : Stack), StackWf st = true →
    (∀ a, Token.Atom a ∈ ts → AtomWf a = true) →
    runTokens st ts = .ok st2 → StackWf st2 = true := by
  intro ts
  induction ts with
  | nil =>
    intro st st2 hst _ h
    rw [runTokens] at h
    injection h with h
    subst h
    exact hst
  | cons t ts ih =>
    intro st st2 hst hatoms h
    rw [runTokens] at h
    cases hstep : step st t with
    | ok stmid =>
      rw [hstep] at h
      refine ih stmid st2 (step_wf st stmid t hst ?_ hstep)
        (fun a ha => hatoms a (List.mem_cons_of_mem t ha)) h
      intro a ha
      refine hatoms a ?_
      rw [← ha]
      exact List.mem_cons_self t ts
    | error e =>
      rw [hstep] at h
      exact absurd h (by simp)

theorem parse_wf (s : List Char) (e : Expr) (h : parse s = .ok e) :
    ExprWf e = true := by
  rw [parse, parseTokens] at h
  cases hrun : runTokens ([], []) (tokenize s) with
  | error err => rw [hrun] at h; exact absurd h (by simp)
  | ok st =>
    rw [hrun] at h
    obtain ⟨nr, root⟩ := st
    have hwf : StackWf (nr, root) = true :=
      runTokens_wf (tokenize s) ([], []) (nr, root) rfl
        (fun a ha => tokenize_atoms_wf s a ha) hrun
    cases nr with
    | cons c cs => exact absurd h (by simp)
    | nil =>
      cases root with
      | nil => exact absurd h (by simp)
      | cons e1 tail =>
        cases tail with
        | cons e2 tail2 => exact absurd h (by simp)
        | nil =>
          have h2 : Except.ok (ε := ParseError) e1 = .ok e := h
          injection h2 with h2
          subst h2
          simp only [StackWf, ExprListWf, Bool.and_eq_true] at hwf
          exact hwf.2.1

/-! ## Final checks of `parse_tokens` -/

theorem parseTokens_unclosed (ts : List Token) (nr : List (List Expr))
    (root : List Expr) (h : runTokens ([], []) ts = .ok (nr, root)) (hne : nr ≠ []) :
    parseTokens ts = .error (.UnclosedParen nr.length) := by
  rw [parseTokens, h]
  cases nr with
  | nil => exact absurd rfl hne
  | cons c cs => rfl

theorem parseTokens_single (ts : List Token) (e : Expr)
    (h : runTokens ([], []) ts = .ok ([], [e])) : parseTokens ts = .ok e := by
  rw [parseTokens, h]

theorem parseTokens_wrongCount (ts : List Token) (root : List Expr)
    (h : runTokens ([], []) ts = .ok ([], root)) (hne : root.length ≠ 1) :
    parseTokens ts = .error (.WrongTopLevelCount root.length) := by
  rw [parseTokens, h]
  cases root with
  | nil => rfl
  | cons e1 tail =>
    cases tail with
    | nil => exact absurd rfl hne
    | cons e2 tail2 => rfl

/-! ## Canonical strings and the round trip -/

theorem renderList_eq_joinSpace : ∀ es : List Expr,
    renderList es = joinSpace (es.map render)
  | [] => rfl
  | [_] => rfl
  | e :: e2 :: es => by
    rw [renderList, List.map_cons, List.map_cons, joinSpace,
      ← List.map_cons render e2 es, renderList_eq_joinSpace (e2 :: es)]

theorem exists_exprList : ∀ ss : List (List Char),
    (∀ x ∈ ss, ∃ e : Expr, ExprWf e = true ∧ render e = x) →
    ∃ es : List Expr, ExprListWf es = true ∧ es.map render = ss := by
  intro ss
  induction ss with
  | nil => intro _; exact ⟨[], rfl, rfl⟩
  | cons x ss ih =>
    intro h
    obtain ⟨e, he, hre⟩ := h x (List.mem_cons_self x ss)
    obtain ⟨es, hes, hmap⟩ := ih (fun y hy => h y (List.mem_cons_of_mem x hy))
    exact ⟨e :: es, by simp [ExprListWf, he, hes], by simp [hmap, hre]⟩

theorem canonStr_render (s : List Char) (h : CanonStr s) :
    ∃ e : Expr, ExprWf e = true ∧ render e = s := by
  induction h with
  | atom s h1 h2 h3 =>
    refine ⟨.Atom (Atom.new s), ?_, ?_⟩
    · rw [show ExprWf (.Atom (Atom.new s)) = AtomWf (Atom.new s) from rfl]
      cases hp : parseU32 s with
      | some n =>
        rw [Atom.new, hp]
        simpa [AtomWf] using parseU32_lt s n hp
      | none =>
        rw [Atom.new, hp]
        cases s with
        | nil => exact absurd rfl h1
        | cons c cs => simp [AtomWf, h2, hp]
    · cases hp : parseU32 s with
      | some n => rw [Atom.new, hp, render]; exact (h3 n hp).symm
      | none => rw [Atom.new, hp, render]
  | group ss h ih =>
    obtain ⟨es, hwf, hmap⟩ := exists_exprList ss ih
    refine ⟨.Group es, by simpa [ExprWf] using hwf, ?_⟩
    rw [render, renderList_eq_joinSpace, hmap]

theorem canonStr_roundtrip (s : List Char) (h : CanonStr s) :
    ∃ e : Expr, parse s = .ok e ∧ render e = s := by
  obtain ⟨e, hwf, hre⟩ := canonStr_render s h
  exact ⟨e, by rw [← hre, parse_render e hwf], hre⟩

theorem atomWf_text_ne (a : Atom) (h : AtomWf a = true) : atomText a ≠ [] := by
  cases a with
  | Ident s =>
    simp only [AtomWf, Bool.and_eq_true] at h
    intro hs
    rw [atomText] at hs
    subst hs
    simp at h
  | Num n =>
    rw [atomText]
    exact natDigits_ne_nil n

mutual

theorem exprWf_identsNonEmpty (e : Expr) (h : ExprWf e = true) :
    identsNonEmpty e = true := by
  match e with
  | .Atom (.Ident s) =>
    simp only [ExprWf, AtomWf, Bool.and_eq_true] at h
    rw [identsNonEmpty]
    exact h.1.1
  | .Atom (.Num n) => rfl
  | .Group es =>
    rw [identsNonEmpty]
    exact exprListWf_identsNonEmpty es (by simpa [ExprWf] using h)

theorem exprListWf_identsNonEmpty (es : List Expr) (h : ExprListWf es = true) :
    identsNonEmptyList es = true := by
  match es with
  | [] => rfl
  | e :: es2 =>
    simp only [ExprListWf, Bool.and_eq_true] at h
    rw [identsNonEmptyList, Bool.and_eq_true]
    exact ⟨exprWf_identsNonEmpty e h.1, exprListWf_identsNonEmpty es2 h.2⟩

end

theorem parseTokens_single_atom (a : Atom) :
    parseTokens [Token.Atom a] = .ok (.Atom a) := rfl

/-! ## Claims -/

/-- C1, counterexample: the input `042` is a syntactically valid single
atom using single-space separators and no redundant whitespace, yet
`render (parse "042")` is `"42"`, not `"042"` — Rust's `u32::from_str`
accepts leading zeros, and rendering canonicalizes them away.  So the
round-trip claim is false as stated. -/
theorem roundtrip_fails_on_leading_zeros :
    ValidStr ('0' :: '4' :: '2' :: []) ∧
    parse ('0' :: '4' :: '2' :: []) = .ok (.Atom (.Num 42)) ∧
    render (.Atom (.Num 42)) ≠ ('0' :: '4' :: '2' :: []) :=
  ⟨ValidStr.atom _ (by decide) (by decide), rfl, by decide⟩

/-- C1 (amended): for every syntactically valid input string that uses
single spaces as separators, contains no redundant whitespace, and writes
every numeric atom canonically (the decimal digits of its value, no
leading zeros, no sign), `render (parse input)` equals `input`; in
particular the example input `(first (list 1 (+ 2 3) 9))` parses
successfully and renders back to the identical string. -/
theorem roundtrip_canonical :
    (∀ s : List Char, CanonStr s → ∃ e : Expr, parse s = .ok e ∧ render e = s) ∧
    (parse "(first (list 1 (+ 2 3) 9))".toList).map render =
      .ok "(first (list 1 (+ 2 3) 9))".toList :=
  ⟨canonStr_roundtrip, rfl⟩

/-- C1 witness: the amended round trip applied to the concrete canonical
input `()`. -/
theorem roundtrip_canonical_witness :
    ∃ e : Expr, parse ('(' :: ')' :: []) = .ok e ∧ render e = ('(' :: ')' :: []) := by
  have hc : CanonStr ('(' :: ')' :: []) :=
    CanonStr.group [] (fun x hx => absurd hx (List.not_mem_nil x))
  exact roundtrip_canonical.1 ('(' :: ')' :: []) hc

/-- C2: for every Expression `e` that is the successful result of some
`parse` call, `parse (render e)` succeeds and returns a tree structurally
equal to `e`. -/
theorem parse_render_parse (s : List Char) (e : Expr) (h : parse s = .ok e) :
    parse (render e) = .ok e :=
  parse_render e (parse_wf s e h)

/-- C2 witness: the idempotence theorem applied to the parse of
`(a b)`. -/
theorem parse_render_parse_witness :
    parse (render (.Group [.Atom (.Ident ('a' :: [])), .Atom (.Ident ('b' :: []))])) =
      .ok (.Group [.Atom (.Ident ('a' :: [])), .Atom (.Ident ('b' :: []))]) :=
  parse_render_parse "(a b)".toList
    (.Group [.Atom (.Ident ('a' :: [])), .Atom (.Ident ('b' :: []))]) rfl

/-- C3: atom classification tries a `u32` parse of the token text, giving
a `Num` on success and an `Ident` on failure; `42` is a `Num`, while
`-42` (sign unsupported) and `4294967296` (exceeds 32 bits) fall back to
`Ident` rather than an error. -/
theorem atom_classification :
    (∀ s : List Char, Atom.new s = match parseU32 s with
      | some n => Atom.Num n
      | none => Atom.Ident s) ∧
    parse "42".toList = .ok (.Atom (.Num 42)) ∧
    parse "-42".toList = .ok (.Atom (.Ident "-42".toList)) ∧
    parse "4294967296".toList = .ok (.Atom (.Ident "4294967296".toList)) :=
  ⟨fun _ => rfl, rfl, rfl, rfl⟩

/-- C4, counterexample: a tab is a whitespace character, but the
tokenizer does not flush the buffer on it — only `(`, `)` and the ASCII
space are separators — so `a<TAB>b` becomes one atom containing the tab,
and no atom `a` is ever emitted. -/
theorem whitespace_flush_fails_on_tab :
    Char.isWhitespace '\t' = true ∧
    tokenize ('a' :: '\t' :: 'b' :: []) =
      [Token.Atom (.Ident ('a' :: '\t' :: 'b' :: []))] ∧
    Token.Atom (Atom.new ('a' :: [])) ∉ tokenize ('a' :: '\t' :: 'b' :: []) :=
  ⟨by decide, rfl, by decide⟩

/-- C4 (amended): during tokenization, on encountering `(` or `)` or the
ASCII space character the non-empty current buffer is flushed as a single
Atom token and cleared, and a space itself never produces a token; any
other character (including other whitespace such as tab) is appended to
the buffer; one trailing space is conceptually appended to the input so a
trailing atom is always flushed. -/
theorem tokenizer_flush :
    (∀ (buf : List Char) (c : Char) (cs : List Char),
      (c = '(' ∨ c = ')' ∨ c = ' ') →
      tokenizeAux buf (c :: cs) = flushBuf buf ++ tokenizeAux [] (c :: cs)) ∧
    (∀ buf : List Char, buf ≠ [] → flushBuf buf = [Token.Atom (Atom.new buf)]) ∧
    (∀ (buf cs : List Char),
      tokenizeAux buf (' ' :: cs) = flushBuf buf ++ tokenizeAux [] cs) ∧
    (∀ (buf : List Char) (c : Char) (cs : List Char), c ≠ '(' → c ≠ ')' → c ≠ ' ' →
      tokenizeAux buf (c :: cs) = tokenizeAux (buf ++ [c]) cs) ∧
    (∀ s : List Char, tokenize s = tokenizeAux [] (s ++ [' '])) :=
  ⟨tokenizeAux_sep, fun buf h => by rw [flushBuf, if_neg h], fun _ _ => rfl,
    tokenizeAux_other, fun _ => rfl⟩

/-- C4 witness: the flush equations applied to the concrete buffer `a`
meeting `(`, a space, and the ordinary character `b`. -/
theorem tokenizer_flush_witness :
    tokenizeAux ('a' :: []) ('(' :: []) =
      flushBuf ('a' :: []) ++ tokenizeAux [] ('(' :: []) ∧
    flushBuf ('a' :: []) = [Token.Atom (Atom.new ('a' :: []))] ∧
    tokenizeAux ('a' :: []) ('b' :: []) = tokenizeAux ('a' :: 'b' :: []) [] :=
  ⟨tokenizer_flush.1 ('a' :: []) '(' [] (Or.inl rfl),
    tokenizer_flush.2.1 ('a' :: []) (by decide),
    tokenizer_flush.2.2.2.1 ('a' :: []) 'b' [] (by decide) (by decide) (by decide)⟩

/-- C5: the token loop fails with `UnbalancedParen` exactly when a
`Rparen` is processed while the stack holds only the root context, and
that is the only error the loop itself can raise; in particular
`parse ")"` fails with `UnbalancedParen`. -/
theorem unbalanced_paren :
    (∀ (st : Stack) (t : Token),
      step st t = .error .UnbalancedParen ↔ (t = .Rparen ∧ st.1 = [])) ∧
    (∀ (st : Stack) (t : Token) (e : ParseError),
      step st t = .error e → e = .UnbalancedParen) ∧
    parse ")".toList = .error .UnbalancedParen := by
  refine ⟨?_, step_error, rfl⟩
  intro st t
  obtain ⟨nr, root⟩ := st
  constructor
  · intro h
    cases t with
    | Lparen => rw [step_lparen] at h; exact absurd h (by simp)
    | Rparen =>
      cases nr with
      | nil => exact ⟨rfl, rfl⟩
      | cons top rest => rw [step_rparen_cons] at h; exact absurd h (by simp)
    | Atom a => rw [step_atom] at h; exact absurd h (by simp)
  · rintro ⟨rfl, h1⟩
    have h2 : nr = [] := h1
    subst h2
    rfl

/-- C5 witness: the characterization applied at the concrete state with
only the root context and a closing parenthesis. -/
theorem unbalanced_paren_witness :
    step (([], []) : Stack) Token.Rparen = .error .UnbalancedParen :=
  (unbalanced_paren.1 ([], []) Token.Rparen).mpr ⟨rfl, rfl⟩

/-- C6: if the token loop completes with contexts beyond the root still
open, parsing fails with `UnclosedParen count` where `count` is the
number of open non-root contexts; in particular `parse "(a (b)"` fails
with `UnclosedParen 1`. -/
theorem unclosed_paren :
    (∀ (ts : List Token) (nr : List (List Expr)) (root : List Expr),
      runTokens ([], []) ts = .ok (nr, root) → nr ≠ [] →
      parseTokens ts = .error (.UnclosedParen nr.length)) ∧
    parse "(a (b)".toList = .error (.UnclosedParen 1) :=
  ⟨parseTokens_unclosed, rfl⟩

/-- C6 witness: the unclosed-paren rule applied to the concrete token
sequence of `(a (b)`, whose loop ends with one open context. -/
theorem unclosed_paren_witness :
    parseTokens (tokenize "(a (b)".toList) = .error (.UnclosedParen 1) :=
  unclosed_paren.1 (tokenize "(a (b)".toList)
    [[Expr.Atom (.Ident ('a' :: [])), Expr.Group [Expr.Atom (.Ident ('b' :: []))]]]
    [] rfl (List.cons_ne_nil _ _)

/-- C7: with no context left open, parsing fails with
`WrongTopLevelCount n` exactly when the root context holds `n ≠ 1`
expressions, and returns the single expression otherwise; in particular
`parse ""` fails with `WrongTopLevelCount 0` and `parse "a b"` with
`WrongTopLevelCount 2`. -/
theorem wrong_top_level_count :
    (∀ (ts : List Token) (root : List Expr),
      runTokens ([], []) ts = .ok ([], root) → root.length ≠ 1 →
      parseTokens ts = .error (.WrongTopLevelCount root.length)) ∧
    (∀ (ts : List Token) (e : Expr),
      runTokens ([], []) ts = .ok ([], [e]) → parseTokens ts = .ok e) ∧
    (∀ (ts : List Token) (n : Nat),
      parseTokens ts = .error (.WrongTopLevelCount n) →
      ∃ root, runTokens ([], []) ts = .ok ([], root) ∧ root.length = n ∧ n ≠ 1) ∧
    parse "".toList = .error (.WrongTopLevelCount 0) ∧
    parse "a b".toList = .error (.WrongTopLevelCount 2) := by
  refine ⟨parseTokens_wrongCount, parseTokens_single, ?_, rfl, rfl⟩
  intro ts n h
  rw [parseTokens] at h
  cases hrun : runTokens ([], []) ts with
  | error e =>
    rw [hrun] at h
    injection h with h
    have he : e = .UnbalancedParen := runTokens_error ts ([], []) e hrun
    subst he
    exact absurd h (by simp)
  | ok st =>
    obtain ⟨nr, root⟩ := st
    rw [hrun] at h
    cases nr with
    | cons c cs =>
      injection h with h
      exact absurd h (by simp)
    | nil =>
      cases root with
      | nil =>
        injection h with h
        injection h with h
        subst h
        exact ⟨[], rfl, rfl, by decide⟩
      | cons e1 tail =>
        cases tail with
        | nil => exact absurd h (by simp)
        | cons e2 tail2 =>
          injection h with h
          injection h with h
          subst h
          refine ⟨e1 :: e2 :: tail2, rfl, rfl, ?_⟩
          rw [List.length_cons, List.length_cons]
          omega

/-- C7 witness: the top-level-count rules applied to the empty token
sequence and to a singleton atom sequence. -/
theorem wrong_top_level_count_witness :
    parseTokens [] = .error (.WrongTopLevelCount 0) ∧
    parseTokens [Token.Atom (.Num 7)] = .ok (.Atom (.Num 7)) :=
  ⟨wrong_top_level_count.1 [] [] rfl (by decide),
    wrong_top_level_count.2.1 [Token.Atom (.Num 7)] (.Atom (.Num 7)) rfl⟩

/-- C8: rendering is total with the stated shape — a Group renders as
`(`, its children joined by single spaces, `)`; the empty Group renders
as `()` (and `()` parses back to it); an Identifier renders as its text;
a Number renders as its decimal digits with no sign and no leading
zeros. -/
theorem renderer_shape :
    (∀ es : List Expr, render (.Group es) = '(' :: renderList es ++ [')']) ∧
    (∀ (e e2 : Expr) (es : List Expr),
      renderList (e :: e2 :: es) = render e ++ ' ' :: renderList (e2 :: es)) ∧
    render (.Group []) = "()".toList ∧
    parse "()".toList = .ok (.Group []) ∧
    (∀ s : List Char, render (.Atom (.Ident s)) = s) ∧
    (∀ n : Nat, render (.Atom (.Num n)) = natDigits n) ∧
    (∀ n : Nat, (natDigits n).all Char.isDigit = true) ∧
    (∀ n : Nat, n ≠ 0 → (natDigits n).head? ≠ some '0') ∧
    natDigits 0 = ['0'] :=
  ⟨fun _ => rfl, fun _ _ _ => rfl, rfl, rfl, fun _ => rfl, fun _ => rfl,
    natDigits_all_digit, natDigits_head_ne_zero, rfl⟩

/-- C8 witness: the no-leading-zero property applied at 42. -/
theorem renderer_shape_witness : (natDigits 42).head? ≠ some '0' :=
  renderer_shape.2.2.2.2.2.2.2.1 42 (by decide)

/-- C9: every Atom token the tokenizer emits carries non-empty text, and
consequently every Identifier in a parsed tree has non-empty text. -/
theorem tokens_nonempty :
    (∀ (s : List Char) (a : Atom), Token.Atom a ∈ tokenize s → atomText a ≠ []) ∧
    (∀ (s : List Char) (e : Expr), parse s = .ok e → identsNonEmpty e = true) :=
  ⟨fun s a h => atomWf_text_ne a (tokenize_atoms_wf s a h),
    fun s e h => exprWf_identsNonEmpty e (parse_wf s e h)⟩

/-- C9 witness: applied to the token and parse of the input `a`. -/
theorem tokens_nonempty_witness :
    atomText (.Ident ('a' :: [])) ≠ [] ∧
    identsNonEmpty (.Atom (.Ident ('a' :: []))) = true :=
  ⟨tokens_nonempty.1 ('a' :: []) (.Ident ('a' :: [])) (by decide),
    tokens_nonempty.2 ('a' :: []) (.Atom (.Ident ('a' :: []))) rfl⟩

/-- C10: for every digit string `d` whose value fits in 32 unsigned bits,
parsing `+` followed by `d` succeeds with `Atom (Num value)` — the
`u32` classification accepts a leading `+` — and the result renders as
digits only, without the sign; in particular `parse "+42"` gives
`Atom (Num 42)`, which renders as `"42"`. -/
theorem plus_sign_number :
    (∀ d : List Char, d ≠ [] → d.all Char.isDigit = true →
      digitsToNat d < 2 ^ 32 →
      parse ('+' :: d) = .ok (.Atom (.Num (digitsToNat d))) ∧
      (render (.Atom (.Num (digitsToNat d)))).all Char.isDigit = true) ∧
    parse "+42".toList = .ok (.Atom (.Num 42)) ∧
    render (.Atom (.Num 42)) = "42".toList := by
  refine ⟨?_, rfl, rfl⟩
  intro d hne hdig hlt
  have hbuf : ('+' :: d).all isBufChar = true := by
    rw [List.all_cons]
    refine Bool.and_eq_true .. |>.mpr ⟨by decide, ?_⟩
    rw [List.all_eq_true] at hdig ⊢
    exact fun c hc => isDigit_isBufChar c (hdig c hc)
  have hp : parseU32 ('+' :: d) = some (digitsToNat d) := by
    rw [parseU32, show stripSign ('+' :: d) = d from rfl, if_pos ⟨hne, hdig, hlt⟩]
  have hnew : Atom.new ('+' :: d) = .Num (digitsToNat d) := by
    rw [Atom.new, hp]
  refine ⟨?_, by rw [render]; exact natDigits_all_digit _⟩
  rw [parse, tokenize_single ('+' :: d) (List.cons_ne_nil _ _) hbuf, hnew,
    parseTokens_single_atom]

/-- C10 witness: the sign-acceptance theorem applied to the digit string
`42`. -/
theorem plus_sign_number_witness :
    parse ('+' :: '4' :: '2' :: []) =
      .ok (.Atom (.Num (digitsToNat ('4' :: '2' :: [])))) :=
  (plus_sign_number.1 ('4' :: '2' :: []) (by decide) (by decide) (by decide)).1

/-! ## Concrete evaluations (sanity checks mirroring the spec examples) -/

example : parse "42".toList = .ok (.Atom (.Num 42)) := rfl
example : parse "-42".toList = .ok (.Atom (.Ident "-42".toList)) := rfl
example : parse "+42".toList = .ok (.Atom (.Num 42)) := rfl
example : parse "4294967296".toList = .ok (.Atom (.Ident "4294967296".toList)) := rfl
example : parse ")".toList = .error .UnbalancedParen := rfl
example : parse "(a (b)".toList = .error (.UnclosedParen 1) := rfl
example : parse "".toList = .error (.WrongTopLevelCount 0) := rfl
example : parse "a b".toList = .error (.WrongTopLevelCount 2) := rfl
example : parse "()".toList = .ok (.Group []) := rfl
example : render (.Group []) = "()".toList := rfl
example : render (.Atom (.Num 42)) = "42".toList := rfl
example : parse "(first (list 1 (+ 2 3) 9))".toList =
    .ok (.Group [.Atom (.Ident "first".toList),
      .Group [.Atom (.Ident "list".toList), .Atom (.Num 1),
        .Group [.Atom (.Ident "+".toList), .Atom (.Num 2), .Atom (.Num 3)],
        .Atom (.Num 9)]]) := rfl
example : render (.Group [.Atom (.Ident "first".toList),
      .Group [.Atom (.Ident "list".toList), .Atom (.Num 1),
        .Group [.Atom (.Ident "+".toList), .Atom (.Num 2), .Atom (.Num 3)],
        .Atom (.Num 9)]]) = "(first (list 1 (+ 2 3) 9))".toList := rfl
example : tokenize ('a' :: '\t' :: 'b' :: []) =
    [Token.Atom (.Ident ('a' :: '\t' :: 'b' :: []))] := rfl
